import Mathlib

/-!
Verification of the paper-trading core: the execution simulator
(`PaperExecutionEngine.process_signals` in `execution_engine.py`), the risk
engine (`RiskEngine.check` in `risk_engine.py`) and the Sharpe-ratio helper
(`sharpe_ratio` in `backtest.py`).

Modelling choices:
* Prices, equity and capital are rationals (`ℚ`); Python floats carry exact
  decimal literals in every configuration constant, so rational arithmetic
  mirrors the computations except for float rounding, which no claim is about.
* Timestamps are natural numbers (the price index is only read positionally).
* Signals are integers (`numpy` arrays of 0/1 values; the code compares with
  `== 1` and `== 0`).
* Calendar dates are natural numbers (day ordinals); `date.today()` becomes an
  explicit `today` argument to `RiskEngine.check`.
* The `for` loop of `process_signals` becomes a `List.foldl` of a `step`
  function over `List.range (N - 1)`, with the loop-carried Python locals
  (`position_open`, `current_trade`, `equity`) and the mutated engine fields
  (`self.trades`, `self.equity_curve`) gathered in a `LoopState`.
* `sharpe_ratio` uses `Real.exp` and `Real.sqrt`, so it is embedded over `ℝ`;
  the pandas sample standard deviation (`ddof = 1`) is `sqrt (Σ (x-μ)² / (n-1))`
  with natural subtraction in `n - 1` (for `n ≤ 1` the ℝ-embedding yields the
  junk value `0` where IEEE floats yield `NaN`).
-/

namespace AiBot

/-! ### Configuration constants (`config.py`) -/

def MAX_DAILY_LOSS : ℚ := 25 / 1000

def INITIAL_CAPITAL : ℚ := 100000

def PAPER_TRADE_SLIPPAGE : ℚ := 1 / 100000

def PAPER_TRADE_LATENCY : ℕ := 1

def MAX_DRAWDOWN : ℚ := 10 / 100

/-! ### Price bars

`process_signals` reads `df['close'].iloc[i]` and `df.index[i]`; a DataFrame
row is modelled as a timestamp/close pair. -/

structure Bar where
  time : ℕ
  close : ℚ
  deriving DecidableEq, Repr

/-! ### Trade (`execution_engine.py`, class `Trade`) -/

structure Trade where
  symbol : String
  entry_time : ℕ
  entry_price : ℚ
  volume : ℚ
  exit_time : Option ℕ
  exit_price : Option ℚ
  deriving DecidableEq, Repr

def mkTrade (symbol : String) (entry_time : ℕ) (entry_price : ℚ)
    (volume : ℚ) : Trade :=
  ⟨symbol, entry_time, entry_price, volume, none, none⟩

def Trade.close (t : Trade) (exit_time : ℕ) (exit_price : ℚ) : Trade :=
  { t with exit_time := some exit_time, exit_price := some exit_price }

def Trade.pnl (t : Trade) : ℚ :=
  match t.exit_price with
  | none => 0
  | some xp => (xp - t.entry_price) * t.volume

/-! ### Risk engine (`risk_engine.py`) -/

structure RiskEngine where
  daily_start : ℕ
  start_equity : ℚ
  peak_equity : ℚ
  deriving DecidableEq, Repr

def RiskEngine.init (today : ℕ) : RiskEngine :=
  ⟨today, INITIAL_CAPITAL, INITIAL_CAPITAL⟩

def RiskEngine.reset_daily (_r : RiskEngine) (today : ℕ) (equity : ℚ) :
    RiskEngine :=
  ⟨today, equity, equity⟩

/-- `RiskEngine.check`: returns the boolean decision together with the
post-call state (Python mutates `self`). -/
def RiskEngine.check (r : RiskEngine) (today : ℕ) (equity : ℚ) :
    Bool × RiskEngine :=
  let r := if today ≠ r.daily_start then r.reset_daily today equity else r
  let daily_drawdown := (r.start_equity - equity) / INITIAL_CAPITAL
  if daily_drawdown > MAX_DAILY_LOSS then
    (false, r)
  else
    let r := if equity > r.peak_equity then { r with peak_equity := equity }
             else r
    let trailing_drawdown := (r.peak_equity - equity) / INITIAL_CAPITAL
    if trailing_drawdown > MAX_DRAWDOWN then (false, r) else (true, r)

/-- Folding a sequence of `check` calls (each a `(today, equity)` pair),
keeping only the state. -/
def RiskEngine.run (r : RiskEngine) (calls : List (ℕ × ℚ)) : RiskEngine :=
  calls.foldl (fun s c => (s.check c.1 c.2).2) r

/-! ### Execution engine (`execution_engine.py`, class `PaperExecutionEngine`) -/

inductive Err where
  /-- `ValueError("signals length must match data length")` -/
  | invalidInput
  deriving DecidableEq, Repr

deriving instance DecidableEq for Except

/-- `np.roll(xs, k)`: circular shift to the right by `k` positions, realized as
a left rotation by `length - k % length`. -/
def roll {α : Type} (xs : List α) (k : ℕ) : List α :=
  xs.rotate (xs.length - k % xs.length)

structure PaperExecutionEngine where
  slippage : ℚ
  latency : ℕ
  trades : List Trade
  capital : ℚ
  equity_curve : List ℚ
  deriving DecidableEq, Repr

/-- `PaperExecutionEngine.__init__`. -/
def mkEngine (slippage : ℚ) (latency : ℕ) : PaperExecutionEngine :=
  ⟨slippage, latency, [], INITIAL_CAPITAL, []⟩

/-- Engine with the default `config.py` parameters. -/
def mkDefaultEngine : PaperExecutionEngine :=
  mkEngine PAPER_TRADE_SLIPPAGE PAPER_TRADE_LATENCY

/-- `PaperExecutionEngine._apply_slippage`. -/
def PaperExecutionEngine.apply_slippage (e : PaperExecutionEngine)
    (price : ℚ) (side : ℤ) : ℚ :=
  price + side * e.slippage

/-- Loop-carried state of the `for i in range(len(df) - 1)` loop: the Python
locals `position_open`, `current_trade`, `equity`, together with the mutated
fields `self.trades` and `self.equity_curve`. -/
structure LoopState where
  posOpen : Bool
  curTrade : Option Trade
  equity : ℚ
  trades : List Trade
  curve : List ℚ
  deriving DecidableEq, Repr

/-- One iteration of the loop body at index `i` (signals already delayed). -/
def PaperExecutionEngine.step (e : PaperExecutionEngine) (bars : List Bar)
    (delayed : List ℤ) (st : LoopState) (i : ℕ) : LoopState :=
  let signal := delayed.getD i 0
  let next_price := (bars.getD (i + 1) ⟨0, 0⟩).close
  let timestamp := (bars.getD (i + 1) ⟨0, 0⟩).time
  let st' :=
    if signal = 1 ∧ st.posOpen = false then
      -- Open a long position
      let entry_price := e.apply_slippage next_price 1
      { st with
        posOpen := true
        curTrade := some (mkTrade "FX" timestamp entry_price 1) }
    else if signal = 0 ∧ st.posOpen = true then
      -- Close the position
      match st.curTrade with
      | some t =>
        let exit_price := e.apply_slippage next_price (-1)
        let t' := t.close timestamp exit_price
        { st with
          posOpen := false
          curTrade := some t'
          equity := st.equity + t'.pnl
          trades := st.trades ++ [t'] }
      | none => st  -- unreachable: posOpen is only set with a current trade
    else st
  -- Append current equity to curve
  { st' with curve := st'.curve ++ [st'.equity] }

/-- State after the main loop (before the forced close). -/
def PaperExecutionEngine.loopFinal (e : PaperExecutionEngine)
    (bars : List Bar) (signals : List ℤ) : LoopState :=
  let delayed := roll signals e.latency
  (List.range (bars.length - 1)).foldl (e.step bars delayed)
    ⟨false, none, e.capital, e.trades, e.equity_curve⟩

/-- Whether `process_signals` force-closes a position after the loop. -/
def PaperExecutionEngine.forcedClose (e : PaperExecutionEngine)
    (bars : List Bar) (signals : List ℤ) : Bool :=
  (e.loopFinal bars signals).posOpen &&
    (e.loopFinal bars signals).curTrade.isSome

/-- Loop state after the trailing `if position_open and current_trade is not
None` block (the forced close at the end of data). -/
def PaperExecutionEngine.afterLoop (e : PaperExecutionEngine)
    (bars : List Bar) (signals : List ℤ) : LoopState :=
  let st := e.loopFinal bars signals
  match st.posOpen, st.curTrade with
  | true, some t =>
    let lastBar := bars.getLastD ⟨0, 0⟩
    let exit_price := e.apply_slippage lastBar.close (-1)
    let t' := t.close lastBar.time exit_price
    { st with
      curTrade := some t'
      equity := st.equity + t'.pnl
      trades := st.trades ++ [t']
      curve := st.curve ++ [st.equity + t'.pnl] }
  | _, _ => st

/-- `PaperExecutionEngine.process_signals`: returns the post-call engine and
the returned equity curve (the whole `self.equity_curve`, which the Python
code wraps in a DataFrame indexed by `df.index[:len(self.equity_curve)]`).
`self.capital` is read (as the loop's starting equity) but never assigned. -/
def PaperExecutionEngine.process_signals (e : PaperExecutionEngine)
    (bars : List Bar) (signals : List ℤ) :
    Except Err (PaperExecutionEngine × List ℚ) :=
  if signals.length ≠ bars.length then .error .invalidInput
  else
    .ok ({ e with
           trades := (e.afterLoop bars signals).trades
           equity_curve := (e.afterLoop bars signals).curve },
         (e.afterLoop bars signals).curve)

/-- Exception-as-state view: on a raised `ValueError` the engine object is
left exactly as it was (no field had been assigned); on success it is the
post-call engine. -/
def PaperExecutionEngine.process_signals_st (e : PaperExecutionEngine)
    (bars : List Bar) (signals : List ℤ) :
    PaperExecutionEngine × Option (List ℚ) :=
  match e.process_signals bars signals with
  | .error _ => (e, none)
  | .ok (e', curve) => (e', some curve)

/-- Post-call engine (identity on error), used to state concrete facts. -/
def runEngine (e : PaperExecutionEngine) (bars : List Bar)
    (signals : List ℤ) : PaperExecutionEngine :=
  (e.process_signals_st bars signals).1

/-- Returned equity curve (empty on error). -/
def runCurve (e : PaperExecutionEngine) (bars : List Bar)
    (signals : List ℤ) : List ℚ :=
  ((e.process_signals_st bars signals).2).getD []

/-- Sum of realized PnL over a trade ledger. -/
def totalPnl (trades : List Trade) : ℚ :=
  (trades.map Trade.pnl).sum

/-! ### Backtest evaluator (`backtest.py`, `sharpe_ratio`)

`sharpe_ratio` applies `np.exp` and `np.sqrt`, so it is embedded over `ℝ`.
`mean` and `sampleStd` are the pandas `Series.mean()` and `Series.std()`
(the latter with its default `ddof = 1`); for a series of length `n ≤ 1`
the `n - 1` denominator is `0` and the ℝ-embedding's division-by-zero junk
value `0` stands in for the IEEE `NaN`. -/

noncomputable def mean (xs : List ℝ) : ℝ := xs.sum / xs.length

noncomputable def sampleStd (xs : List ℝ) : ℝ :=
  Real.sqrt ((xs.map (fun x => (x - mean xs) ^ 2)).sum / ((xs.length - 1 : ℕ) : ℝ))

/-- `np.exp(returns) - 1 - risk_free_rate / periods_per_year`, elementwise. -/
noncomputable def excessReturns (returns : List ℝ) (risk_free_rate : ℝ)
    (periods_per_year : ℕ) : List ℝ :=
  (returns.map (fun r => Real.exp r - 1)).map
    (fun a => a - risk_free_rate / periods_per_year)

noncomputable def sharpe_ratio (returns : List ℝ) (risk_free_rate : ℝ)
    (periods_per_year : ℕ) : ℝ :=
  if sampleStd (excessReturns returns risk_free_rate periods_per_year) = 0
  then 0
  else Real.sqrt periods_per_year
    * mean (excessReturns returns risk_free_rate periods_per_year)
    / sampleStd (excessReturns returns risk_free_rate periods_per_year)

/-- The trade's entry was filled at some close of the series plus slippage
(buy side). -/
def entryFromCloses (slippage : ℚ) (closes : List ℚ) (t : Trade) : Prop :=
  ∃ p ∈ closes, t.entry_price = p + slippage

/-- If the trade is closed, its exit was filled at some close of the series
minus slippage (sell side). -/
def exitFromCloses (slippage : ℚ) (closes : List ℚ) (t : Trade) : Prop :=
  ∀ x, t.exit_price = some x → ∃ q ∈ closes, x = q - slippage

/-! ### Concrete inputs used by witnesses and counterexamples -/

/-- Closes `[100, 101, 102, 103]` at times `0..3` (the spec's §8 scenario). -/
def bars0 : List Bar := [⟨0, 100⟩, ⟨1, 101⟩, ⟨2, 102⟩, ⟨3, 103⟩]

def sig0 : List ℤ := [0, 1, 1, 0]

/-- The single trade produced by running the default engine on
`bars0`/`sig0`: opened at `103 + slippage`, force-closed at `103 - slippage`. -/
def tradeAfter0 : Trade :=
  ⟨"FX", 3, 10300001 / 100000, 1, some 3, some (10299999 / 100000)⟩

def curve0 : List ℚ := [100000, 100000, 100000, 4999999999 / 50000]

def engineAfter0 : PaperExecutionEngine :=
  ⟨1 / 100000, 1, [tradeAfter0], 100000, curve0⟩

/-- A valid input on which one round trip loses more than the initial
capital: buy near `300000`, sell near `1`. -/
def bars2 : List Bar := [⟨0, 100⟩, ⟨1, 300000⟩, ⟨2, 1⟩]

def sig2 : List ℤ := [0, 0, 1]

/-! ### Theorems -/

/-- Claim C1: a `check` call on the current daily anchor date whose daily
drawdown `(start_equity - equity) / initial_capital` exceeds
`max_daily_loss_fraction` returns `false` and leaves `peak_equity`
untouched. -/
theorem check_daily_loss_halts (r : RiskEngine) (today : ℕ) (equity : ℚ)
    (hday : today = r.daily_start)
    (hdd : (r.start_equity - equity) / INITIAL_CAPITAL > MAX_DAILY_LOSS) :
    (r.check today equity).1 = false ∧
    (r.check today equity).2.peak_equity = r.peak_equity := by
  constructor <;> simp [RiskEngine.check, hday, hdd]

theorem check_daily_loss_halts_witness :
    ((RiskEngine.init 0).check 0 90000).1 = false ∧
    ((RiskEngine.init 0).check 0 90000).2.peak_equity =
      (RiskEngine.init 0).peak_equity :=
  check_daily_loss_halts (RiskEngine.init 0) 0 90000 rfl
    (by norm_num [RiskEngine.init, INITIAL_CAPITAL, MAX_DAILY_LOSS])

/-- Claim C10: `Trade.pnl` returns exactly `0` while the trade is open
(`exit_price` unset) and `(exit_price - entry_price) * volume` once
closed. -/
theorem pnl_open_zero (t : Trade) :
    (t.exit_price = none → t.pnl = 0) ∧
    (∀ x, t.exit_price = some x → t.pnl = (x - t.entry_price) * t.volume) := by
  refine ⟨fun h => ?_, fun x h => ?_⟩ <;> simp [Trade.pnl, h]

theorem pnl_open_zero_witness :
    (mkTrade "FX" 0 100 1).pnl = 0 ∧
    ((mkTrade "FX" 0 100 1).close 1 102).pnl =
      (102 - ((mkTrade "FX" 0 100 1).close 1 102).entry_price) *
        ((mkTrade "FX" 0 100 1).close 1 102).volume :=
  ⟨(pnl_open_zero (mkTrade "FX" 0 100 1)).1 rfl,
   (pnl_open_zero ((mkTrade "FX" 0 100 1).close 1 102)).2 102 rfl⟩

/-- Claim C6: a length mismatch makes `process_signals` fail with the
`InvalidInput` error, and the engine state (trades, equity curve, capital)
is exactly what it was before the call. -/
theorem process_signals_mismatch_error (e : PaperExecutionEngine)
    (bars : List Bar) (signals : List ℤ)
    (h : signals.length ≠ bars.length) :
    e.process_signals bars signals = .error .invalidInput ∧
    e.process_signals_st bars signals = (e, none) := by
  have h1 : e.process_signals bars signals = .error .invalidInput := by
    simp [PaperExecutionEngine.process_signals, h]
  exact ⟨h1, by simp [PaperExecutionEngine.process_signals_st, h1]⟩

theorem process_signals_mismatch_error_witness :
    mkDefaultEngine.process_signals [] sig0 = .error .invalidInput ∧
    mkDefaultEngine.process_signals_st [] sig0 = (mkDefaultEngine, none) :=
  process_signals_mismatch_error mkDefaultEngine [] sig0 (by decide)

/-- Claim C9: two runs from identically-initialized engines on the same
inputs produce the same trade ledger, the same equity curve and the same
final engine state — the simulation is deterministic. -/
theorem process_signals_deterministic (slippage : ℚ) (latency : ℕ)
    (bars : List Bar) (signals : List ℤ)
    (e₁ e₂ : PaperExecutionEngine) (c₁ c₂ : List ℚ)
    (h₁ : (mkEngine slippage latency).process_signals bars signals
            = .ok (e₁, c₁))
    (h₂ : (mkEngine slippage latency).process_signals bars signals
            = .ok (e₂, c₂)) :
    e₁.trades = e₂.trades ∧ c₁ = c₂ ∧ e₁ = e₂ := by
  rw [h₁] at h₂
  obtain ⟨he, hc⟩ := Prod.mk.injEq .. ▸ (Except.ok.injEq .. ▸ h₂ :
    (e₁, c₁) = (e₂, c₂))
  exact ⟨he ▸ rfl, hc, he⟩

unseal Rat.add Rat.mul Rat.inv Rat.sub in
theorem process_signals_deterministic_witness :
    engineAfter0.trades = engineAfter0.trades ∧
    curve0 = curve0 ∧ engineAfter0 = engineAfter0 :=
  process_signals_deterministic (1 / 100000) 1 bars0 sig0
    engineAfter0 engineAfter0 curve0 curve0 (by decide) (by decide)

/-- One `check` call preserves the invariant `start_equity ≤ peak_equity`. -/
lemma check_preserves_peak_ge (r : RiskEngine) (today : ℕ) (equity : ℚ)
    (h : r.start_equity ≤ r.peak_equity) :
    (r.check today equity).2.start_equity ≤
      (r.check today equity).2.peak_equity := by
  unfold RiskEngine.check
  dsimp only
  split_ifs <;> simp_all [RiskEngine.reset_daily] <;> linarith

/-- On the anchor date a `check` call never decreases `peak_equity` and never
touches `start_equity` or `daily_start`. -/
lemma check_same_day (r : RiskEngine) (today : ℕ) (equity : ℚ)
    (hday : today = r.daily_start) :
    r.peak_equity ≤ (r.check today equity).2.peak_equity ∧
    (r.check today equity).2.start_equity = r.start_equity ∧
    (r.check today equity).2.daily_start = r.daily_start := by
  unfold RiskEngine.check
  dsimp only
  split_ifs <;> simp_all <;> linarith

/-- Claim C7: `peak_equity ≥ start_equity` after initialization, after a
daily reset, and after any sequence of `check` calls; within one day
(all calls on the anchor date) `peak_equity` is non-decreasing and
`start_equity`/`daily_start` are never reset. -/
theorem risk_peak_invariant (d : ℕ) (q : ℚ) (r : RiskEngine)
    (calls : List (ℕ × ℚ)) (hinv : r.start_equity ≤ r.peak_equity) :
    ((RiskEngine.init d).start_equity ≤ (RiskEngine.init d).peak_equity) ∧
    ((r.reset_daily d q).start_equity ≤ (r.reset_daily d q).peak_equity) ∧
    ((r.run calls).start_equity ≤ (r.run calls).peak_equity) ∧
    ((∀ c ∈ calls, c.1 = r.daily_start) →
      r.peak_equity ≤ (r.run calls).peak_equity ∧
      (r.run calls).start_equity = r.start_equity ∧
      (r.run calls).daily_start = r.daily_start) := by
  refine ⟨le_refl _, le_refl _, ?_, ?_⟩
  · induction calls generalizing r with
    | nil => exact hinv
    | cons c cs ih =>
      exact ih _ (check_preserves_peak_ge r c.1 c.2 hinv)
  · induction calls generalizing r with
    | nil => exact fun _ => ⟨le_refl _, rfl, rfl⟩
    | cons c cs ih =>
      intro hall
      have hd : c.1 = r.daily_start := hall c (List.mem_cons_self c cs)
      obtain ⟨h1, h2, h3⟩ := check_same_day r c.1 c.2 hd
      have hinv' := check_preserves_peak_ge r c.1 c.2 hinv
      have hall' : ∀ x ∈ cs, x.1 = (r.check c.1 c.2).2.daily_start := by
        intro x hx
        rw [h3]
        exact hall x (List.mem_cons_of_mem c hx)
      obtain ⟨g1, g2, g3⟩ := ih (r.check c.1 c.2).2 hinv' hall'
      refine ⟨le_trans h1 g1, ?_, ?_⟩
      · rw [RiskEngine.run, List.foldl_cons]
        rw [RiskEngine.run] at g2
        rw [g2, h2]
      · rw [RiskEngine.run, List.foldl_cons]
        rw [RiskEngine.run] at g3
        rw [g3, h3]

unseal Rat.add Rat.mul Rat.inv Rat.sub in
theorem risk_peak_invariant_witness :
    ((RiskEngine.init 0).start_equity ≤ (RiskEngine.init 0).peak_equity) ∧
    (((RiskEngine.init 0).reset_daily 0 5).start_equity ≤
      ((RiskEngine.init 0).reset_daily 0 5).peak_equity) ∧
    (((RiskEngine.init 0).run [(0, 100), (0, 200)]).start_equity ≤
      ((RiskEngine.init 0).run [(0, 100), (0, 200)]).peak_equity) ∧
    ((∀ c ∈ [((0 : ℕ), (100 : ℚ)), (0, 200)],
        c.1 = (RiskEngine.init 0).daily_start) →
      (RiskEngine.init 0).peak_equity ≤
        ((RiskEngine.init 0).run [(0, 100), (0, 200)]).peak_equity ∧
      ((RiskEngine.init 0).run [(0, 100), (0, 200)]).start_equity =
        (RiskEngine.init 0).start_equity ∧
      ((RiskEngine.init 0).run [(0, 100), (0, 200)]).daily_start =
        (RiskEngine.init 0).daily_start) :=
  risk_peak_invariant 0 5 (RiskEngine.init 0) [(0, 100), (0, 200)]
    (le_refl _)

/-- One loop iteration appends exactly one equity point and only ever
appends to the trade list. -/
lemma step_extends (e : PaperExecutionEngine) (bars : List Bar)
    (delayed : List ℤ) (st : LoopState) (i : ℕ) :
    ∃ ts q, (e.step bars delayed st i).trades = st.trades ++ ts ∧
      (e.step bars delayed st i).curve = st.curve ++ [q] := by
  unfold PaperExecutionEngine.step
  dsimp only
  split_ifs with h1 h2
  · exact ⟨[], st.equity, by simp, rfl⟩
  · cases hc : st.curTrade with
    | none =>
      simp only [hc]
      exact ⟨[], st.equity, by simp, rfl⟩
    | some t =>
      simp only [hc]
      exact ⟨_, _, rfl, rfl⟩
  · exact ⟨[], st.equity, by simp, rfl⟩

/-- Folding the loop body over any index list appends one equity point per
iteration and only appends trades. -/
lemma foldl_step_extends (e : PaperExecutionEngine) (bars : List Bar)
    (delayed : List ℤ) :
    ∀ (l : List ℕ) (st : LoopState),
      ∃ ts qs, (l.foldl (e.step bars delayed) st).trades = st.trades ++ ts ∧
        (l.foldl (e.step bars delayed) st).curve = st.curve ++ qs ∧
        qs.length = l.length := by
  intro l
  induction l with
  | nil => exact fun st => ⟨[], [], by simp, by simp, rfl⟩
  | cons i l ih =>
    intro st
    obtain ⟨ts1, q, h1, h2⟩ := step_extends e bars delayed st i
    obtain ⟨ts2, qs2, g1, g2, g3⟩ := ih (e.step bars delayed st i)
    refine ⟨ts1 ++ ts2, [q] ++ qs2, ?_, ?_, ?_⟩
    · rw [List.foldl_cons, g1, h1, List.append_assoc]
    · rw [List.foldl_cons, g2, h2, List.append_assoc]
    · simp [g3]

/-- The main loop appends `len(df) - 1` equity points to `self.equity_curve`
and only appends to `self.trades`. -/
lemma loopFinal_extends (e : PaperExecutionEngine) (bars : List Bar)
    (signals : List ℤ) :
    ∃ ts qs, (e.loopFinal bars signals).trades = e.trades ++ ts ∧
      (e.loopFinal bars signals).curve = e.equity_curve ++ qs ∧
      qs.length = bars.length - 1 := by
  unfold PaperExecutionEngine.loopFinal
  obtain ⟨ts, qs, h1, h2, h3⟩ := foldl_step_extends e bars
    (roll signals e.latency) (List.range (bars.length - 1))
    ⟨false, none, e.capital, e.trades, e.equity_curve⟩
  exact ⟨ts, qs, h1, h2, by simpa using h3⟩

/-- After the forced close the curve has `len(df) - 1` points plus one more
exactly when a forced close occurred; the trade list is still
append-only. -/
lemma afterLoop_extends (e : PaperExecutionEngine) (bars : List Bar)
    (signals : List ℤ) :
    ∃ ts qs, (e.afterLoop bars signals).trades = e.trades ++ ts ∧
      (e.afterLoop bars signals).curve = e.equity_curve ++ qs ∧
      qs.length = (bars.length - 1) +
        (if e.forcedClose bars signals then 1 else 0) := by
  obtain ⟨ts, qs, h1, h2, h3⟩ := loopFinal_extends e bars signals
  unfold PaperExecutionEngine.afterLoop PaperExecutionEngine.forcedClose
  cases hp : (e.loopFinal bars signals).posOpen with
  | false =>
    cases hc : (e.loopFinal bars signals).curTrade with
    | none =>
      simp only [hp, hc]
      exact ⟨ts, qs, h1, h2, by simp [h3]⟩
    | some t =>
      simp only [hp, hc]
      exact ⟨ts, qs, h1, h2, by simp [h3]⟩
  | true =>
    cases hc : (e.loopFinal bars signals).curTrade with
    | none =>
      simp only [hp, hc]
      exact ⟨ts, qs, h1, h2, by simp [h3]⟩
    | some t =>
      simp only [hp, hc]
      exact ⟨ts ++ [t.close (bars.getLastD ⟨0, 0⟩).time
          (e.apply_slippage (bars.getLastD ⟨0, 0⟩).close (-1))],
        qs ++ [(e.loopFinal bars signals).equity +
          (t.close (bars.getLastD ⟨0, 0⟩).time
            (e.apply_slippage (bars.getLastD ⟨0, 0⟩).close (-1))).pnl],
        by rw [h1, List.append_assoc],
        by rw [h2, List.append_assoc],
        by simp [h3]⟩

/-- Claim C3 (amended): a successful `process_signals` call only appends to
the engine's trade ledger and equity curve; `slippage`, `latency` and in
particular `capital` are left exactly as they were (the realized PnL is
never folded back into `self.capital`), and the returned curve is the
engine's whole post-call `equity_curve`. Inputs are values in this
embedding; the Python code never assigns into `df` or `signals` (`np.roll`
allocates a fresh array). -/
theorem process_signals_frame (e : PaperExecutionEngine) (bars : List Bar)
    (signals : List ℤ) (e' : PaperExecutionEngine) (curve : List ℚ)
    (h : e.process_signals bars signals = .ok (e', curve)) :
    e'.capital = e.capital ∧ e'.slippage = e.slippage ∧
    e'.latency = e.latency ∧
    (∃ ts, e'.trades = e.trades ++ ts) ∧
    (∃ qs, e'.equity_curve = e.equity_curve ++ qs) ∧
    curve = e'.equity_curve := by
  obtain ⟨ts, qs, h1, h2, _⟩ := afterLoop_extends e bars signals
  unfold PaperExecutionEngine.process_signals at h
  split_ifs at h with hlen
  cases h
  exact ⟨rfl, rfl, rfl, ⟨ts, h1⟩, ⟨qs, h2⟩, rfl⟩

unseal Rat.add Rat.mul Rat.inv Rat.sub in
theorem process_signals_frame_witness :
    engineAfter0.capital = mkDefaultEngine.capital ∧
    engineAfter0.slippage = mkDefaultEngine.slippage ∧
    engineAfter0.latency = mkDefaultEngine.latency ∧
    (∃ ts, engineAfter0.trades = mkDefaultEngine.trades ++ ts) ∧
    (∃ qs, engineAfter0.equity_curve = mkDefaultEngine.equity_curve ++ qs) ∧
    curve0 = engineAfter0.equity_curve :=
  process_signals_frame mkDefaultEngine bars0 sig0 engineAfter0 curve0
    (by decide)

unseal Rat.add Rat.mul Rat.inv Rat.sub in
/-- Counterexample to claim C3 as stated: on `bars0`/`sig0` the run realizes
a non-zero PnL, yet `capital` after the call is still the pre-call value —
the capital field does not reflect the realized PnL of the run. -/
theorem capital_not_updated_cex :
    (runEngine mkDefaultEngine bars0 sig0).capital = mkDefaultEngine.capital ∧
    totalPnl (runEngine mkDefaultEngine bars0 sig0).trades ≠ 0 ∧
    (runEngine mkDefaultEngine bars0 sig0).capital ≠
      mkDefaultEngine.capital +
        totalPnl (runEngine mkDefaultEngine bars0 sig0).trades := by
  decide

/-- Claim C2 (amended): for matching-length inputs with `N ≥ 2` on a fresh
engine, the returned equity curve has `N - 1` points, or `N` exactly when a
forced close occurs, and is never empty. -/
theorem equity_curve_length (slippage : ℚ) (latency : ℕ)
    (bars : List Bar) (signals : List ℤ)
    (e' : PaperExecutionEngine) (curve : List ℚ)
    (hN : 2 ≤ bars.length)
    (h : (mkEngine slippage latency).process_signals bars signals
           = .ok (e', curve)) :
    curve.length =
      (if (mkEngine slippage latency).forcedClose bars signals
       then bars.length else bars.length - 1) ∧
    curve ≠ [] := by
  obtain ⟨ts, qs, h1, h2, h3⟩ :=
    afterLoop_extends (mkEngine slippage latency) bars signals
  unfold PaperExecutionEngine.process_signals at h
  split_ifs at h with hlen
  cases h
  have h2' : ((mkEngine slippage latency).afterLoop bars signals).curve = qs := by
    simpa [mkEngine] using h2
  rw [h2']
  cases hfc : (mkEngine slippage latency).forcedClose bars signals <;>
    rw [hfc] at h3 <;> simp only [Bool.false_eq_true, if_true, if_false,
      ite_true, ite_false, if_neg, reduceIte] at h3 ⊢ <;>
    constructor
  · omega
  · exact List.ne_nil_of_length_pos (by omega)
  · omega
  · exact List.ne_nil_of_length_pos (by omega)

unseal Rat.add Rat.mul Rat.inv Rat.sub in
theorem equity_curve_length_witness :
    curve0.length =
      (if (mkEngine (1 / 100000) 1).forcedClose bars0 sig0
       then bars0.length else bars0.length - 1) ∧
    curve0 ≠ [] :=
  equity_curve_length (1 / 100000) 1 bars0 sig0 engineAfter0 curve0
    (by decide) (by decide)

unseal Rat.add Rat.mul Rat.inv Rat.sub in
/-- Counterexample to claim C2 as stated: `bars2`/`sig2` is a valid input
(matching lengths, binary signals, positive closes, `N = 3 ≥ 2`), yet one
round trip loses more than the initial capital, so the equity curve contains
a negative value. -/
theorem equity_curve_negative_cex :
    2 ≤ bars2.length ∧ (∀ s ∈ sig2, s = 0 ∨ s = 1) ∧
    (∀ b ∈ bars2, 0 < b.close) ∧ sig2.length = bars2.length ∧
    (runCurve mkDefaultEngine bars2 sig2).any (fun q => decide (q < 0))
      = true := by
  decide

/-- One loop iteration preserves fill-price provenance: every ledger trade's
entry is `close + slippage` and exit is `close - slippage` for closes of the
series, and the currently open trade's entry is `close + slippage`. -/
lemma step_slippage (e : PaperExecutionEngine) (bars : List Bar)
    (delayed : List ℤ) (st : LoopState) (i : ℕ)
    (hi : i + 1 < bars.length)
    (h1 : ∀ t ∈ st.trades,
      entryFromCloses e.slippage (bars.map Bar.close) t ∧
      exitFromCloses e.slippage (bars.map Bar.close) t)
    (h2 : ∀ t, st.curTrade = some t →
      entryFromCloses e.slippage (bars.map Bar.close) t) :
    (∀ t ∈ (e.step bars delayed st i).trades,
      entryFromCloses e.slippage (bars.map Bar.close) t ∧
      exitFromCloses e.slippage (bars.map Bar.close) t) ∧
    (∀ t, (e.step bars delayed st i).curTrade = some t →
      entryFromCloses e.slippage (bars.map Bar.close) t) := by
  have hmem : (bars.getD (i + 1) ⟨0, 0⟩).close ∈ bars.map Bar.close := by
    rw [List.getD_eq_getElem _ _ hi]
    exact List.mem_map_of_mem Bar.close (List.getElem_mem hi)
  unfold PaperExecutionEngine.step
  dsimp only
  split_ifs with hb1 hb2
  · refine ⟨h1, fun t ht => ?_⟩
    simp only [Option.some.injEq] at ht
    refine ⟨(bars.getD (i + 1) ⟨0, 0⟩).close, hmem, ?_⟩
    rw [← ht]
    simp [mkTrade, PaperExecutionEngine.apply_slippage]
  · cases hc : st.curTrade with
    | none => simp only [hc]; exact ⟨h1, fun t ht => nomatch ht⟩
    | some t =>
      simp only [hc]
      constructor
      · intro u hu
        rw [List.mem_append] at hu
        rcases hu with hu | hu
        · exact h1 u hu
        · rw [List.mem_singleton] at hu
          subst hu
          refine ⟨h2 t hc, fun x hx => ?_⟩
          simp only [Trade.close, Option.some.injEq] at hx
          refine ⟨(bars.getD (i + 1) ⟨0, 0⟩).close, hmem, ?_⟩
          rw [← hx]
          simp [PaperExecutionEngine.apply_slippage]
          ring
      · intro u hu
        simp only [Option.some.injEq] at hu
        subst hu
        exact h2 t hc
  · exact ⟨h1, h2⟩

/-- The fill-price provenance invariant holds after folding the loop body
over any list of in-range indices. -/
lemma foldl_step_slippage (e : PaperExecutionEngine) (bars : List Bar)
    (delayed : List ℤ) :
    ∀ (l : List ℕ) (st : LoopState),
      (∀ i ∈ l, i + 1 < bars.length) →
      (∀ t ∈ st.trades,
        entryFromCloses e.slippage (bars.map Bar.close) t ∧
        exitFromCloses e.slippage (bars.map Bar.close) t) →
      (∀ t, st.curTrade = some t →
        entryFromCloses e.slippage (bars.map Bar.close) t) →
      (∀ t ∈ (l.foldl (e.step bars delayed) st).trades,
        entryFromCloses e.slippage (bars.map Bar.close) t ∧
        exitFromCloses e.slippage (bars.map Bar.close) t) ∧
      (∀ t, (l.foldl (e.step bars delayed) st).curTrade = some t →
        entryFromCloses e.slippage (bars.map Bar.close) t) := by
  intro l
  induction l with
  | nil => exact fun st _ h1 h2 => ⟨h1, h2⟩
  | cons i l ih =>
    intro st hl h1 h2
    obtain ⟨g1, g2⟩ := step_slippage e bars delayed st i
      (hl i (List.mem_cons_self i l)) h1 h2
    exact ih (e.step bars delayed st i)
      (fun j hj => hl j (List.mem_cons_of_mem i hj)) g1 g2

/-- With at most one bar there is no loop iteration, so no position can be
open after the loop. -/
lemma loopFinal_posOpen_short (e : PaperExecutionEngine) (bars : List Bar)
    (signals : List ℤ) (hb : bars.length ≤ 1) :
    (e.loopFinal bars signals).posOpen = false := by
  unfold PaperExecutionEngine.loopFinal
  have h0 : bars.length - 1 = 0 := by omega
  rw [h0]
  rfl

/-- Every trade in the post-run ledger of a fresh engine has its entry filled
at `close + slippage` and its exit at `close - slippage` for closes of the
input series. -/
lemma afterLoop_slippage (slippage : ℚ) (latency : ℕ) (bars : List Bar)
    (signals : List ℤ) :
    ∀ t ∈ ((mkEngine slippage latency).afterLoop bars signals).trades,
      entryFromCloses slippage (bars.map Bar.close) t ∧
      exitFromCloses slippage (bars.map Bar.close) t := by
  have hslip : (mkEngine slippage latency).slippage = slippage := rfl
  obtain ⟨g1, g2⟩ := foldl_step_slippage (mkEngine slippage latency) bars
    (roll signals latency) (List.range (bars.length - 1))
    ⟨false, none, (mkEngine slippage latency).capital, [], []⟩
    (fun i hi => by rw [List.mem_range] at hi; omega)
    (fun t ht => absurd ht (List.not_mem_nil t))
    (fun t ht => by cases ht)
  have gfin :
      ∀ t ∈ ((mkEngine slippage latency).loopFinal bars signals).trades,
        entryFromCloses slippage (bars.map Bar.close) t ∧
        exitFromCloses slippage (bars.map Bar.close) t := g1
  have gcur :
      ∀ t, ((mkEngine slippage latency).loopFinal bars signals).curTrade
          = some t →
        entryFromCloses slippage (bars.map Bar.close) t := g2
  unfold PaperExecutionEngine.afterLoop
  cases hp : ((mkEngine slippage latency).loopFinal bars signals).posOpen with
  | false =>
    cases hc : ((mkEngine slippage latency).loopFinal bars signals).curTrade
      with
    | none => simp only [hp, hc]; exact gfin
    | some t => simp only [hp, hc]; exact gfin
  | true =>
    cases hc : ((mkEngine slippage latency).loopFinal bars signals).curTrade
      with
    | none => simp only [hp, hc]; exact gfin
    | some t =>
      simp only [hp, hc]
      have hbars : bars ≠ [] := by
        intro hnil
        have := loopFinal_posOpen_short (mkEngine slippage latency) bars
          signals (by rw [hnil]; simp)
        rw [hp] at this
        cases this
      have hlast : (bars.getLastD ⟨0, 0⟩).close ∈ bars.map Bar.close := by
        rw [List.getLastD_eq_getLast?, List.getLast?_eq_getLast _ hbars]
        simp only [Option.getD_some]
        exact List.mem_map_of_mem Bar.close (List.getLast_mem hbars)
      intro u hu
      rw [List.mem_append] at hu
      rcases hu with hu | hu
      · exact gfin u hu
      · rw [List.mem_singleton] at hu
        subst hu
        refine ⟨gcur t hc, fun x hx => ?_⟩
        simp only [Trade.close, Option.some.injEq] at hx
        refine ⟨(bars.getLastD ⟨0, 0⟩).close, hlast, ?_⟩
        rw [← hx]
        simp only [PaperExecutionEngine.apply_slippage, mkEngine]
        push_cast
        ring

/-- Claim C5: for slippage ≥ 0, every ledger trade of a fresh-engine run
(forced close included) entered at `close + slippage ≥ close` and exited at
`close - slippage ≤ close`, where the close is a price of the input series —
slippage never improves the trader's price on either leg. -/
theorem slippage_adverse (slippage : ℚ) (latency : ℕ) (bars : List Bar)
    (signals : List ℤ) (e' : PaperExecutionEngine) (curve : List ℚ)
    (hs : 0 ≤ slippage)
    (h : (mkEngine slippage latency).process_signals bars signals
           = .ok (e', curve)) :
    ∀ t ∈ e'.trades,
      (∃ p ∈ bars.map Bar.close,
        t.entry_price = p + slippage ∧ p ≤ t.entry_price) ∧
      (∀ x, t.exit_price = some x →
        ∃ q ∈ bars.map Bar.close, x = q - slippage ∧ x ≤ q) := by
  have hall := afterLoop_slippage slippage latency bars signals
  unfold PaperExecutionEngine.process_signals at h
  split_ifs at h with hlen
  cases h
  intro t ht
  obtain ⟨⟨p, hp, hpe⟩, hexit⟩ := hall t ht
  refine ⟨⟨p, hp, hpe, by rw [hpe]; linarith⟩, fun x hx => ?_⟩
  obtain ⟨q, hq, hqe⟩ := hexit x hx
  exact ⟨q, hq, hqe, by rw [hqe]; linarith⟩

unseal Rat.add Rat.mul Rat.inv Rat.sub in
theorem slippage_adverse_witness :
    (∃ p ∈ bars0.map Bar.close,
      tradeAfter0.entry_price = p + 1 / 100000 ∧
      p ≤ tradeAfter0.entry_price) ∧
    (∃ q ∈ bars0.map Bar.close,
      (10299999 / 100000 : ℚ) = q - 1 / 100000 ∧
      (10299999 / 100000 : ℚ) ≤ q) :=
  have H := slippage_adverse (1 / 100000) 1 bars0 sig0 engineAfter0 curve0
    (by decide) (by decide)
  ⟨(H tradeAfter0 (by decide)).1,
   (H tradeAfter0 (by decide)).2 (10299999 / 100000) (by decide)⟩

/-- Indexing a left rotation through `getD`. -/
lemma rotate_getD (l : List ℤ) (n k : ℕ) (h : k < l.length) (d : ℤ) :
    (l.rotate n).getD k d = l.getD ((k + n) % l.length) d := by
  have h' : k < (l.rotate n).length := by rw [List.length_rotate]; exact h
  rw [List.getD_eq_getElem _ _ h', List.getElem_rotate]
  rw [List.getD_eq_getElem]

/-- The left-rotation index used by `roll` agrees with the mathematical
`(i - L) mod N`. -/
lemma roll_index (N L i : ℕ) (hN : 0 < N) (_hi : i < N) :
    (i + (N - L % N)) % N = (((i : ℤ) - L) % (N : ℤ)).toNat := by
  have hm : L % N < N := Nat.mod_lt _ hN
  have key : (((i + (N - L % N)) % N : ℕ) : ℤ) = ((i : ℤ) - L) % N := by
    push_cast [Nat.cast_sub hm.le]
    have h2 : (i : ℤ) + ((N : ℤ) - (L : ℤ) % N)
        = ((i : ℤ) - L) + (N : ℤ) * (1 + (L : ℤ) / N) := by
      rw [mul_add, mul_one]
      linarith [Int.ediv_add_emod (L : ℤ) (N : ℤ)]
    rw [h2, Int.add_mul_emod_self_left]
  rw [← key, Int.toNat_natCast]

/-- For `i < L ≤ N` the mathematical index `(i - L) mod N` is `N - L + i`:
the last `L` entries wrap around to the front. -/
lemma roll_index_small (N L i : ℕ) (hL : L ≤ N) (hi : i < L) :
    (((i : ℤ) - L) % (N : ℤ)).toNat = N - L + i := by
  have h0 : (0 : ℤ) ≤ (i : ℤ) - L + N := by omega
  have h1 : (i : ℤ) - L + N < (N : ℤ) := by omega
  have h5 : ((i : ℤ) - L + N * 1) % N = ((i : ℤ) - L) % N :=
    Int.add_mul_emod_self_left ((i : ℤ) - L) N 1
  have h4 : ((i : ℤ) - L) % N = (i : ℤ) - L + N := by
    rw [← h5, mul_one]
    exact Int.emod_eq_of_lt h0 h1
  rw [h4]
  omega

/-- Claim C4: the delayed signal used at bar `i` is the original signal at
index `(i - latency) mod N`; in particular, for `i < latency ≤ N`, the wrap
reads the signal at position `N - latency + i` — the last `latency` signals
wrap around to the first `latency` positions. -/
theorem roll_delayed_signal (signals : List ℤ) (L i : ℕ) (d : ℤ)
    (hi : i < signals.length) :
    (roll signals L).getD i d
      = signals.getD ((((i : ℤ) - L) % (signals.length : ℤ)).toNat) d ∧
    (L ≤ signals.length → i < L →
      (roll signals L).getD i d
        = signals.getD (signals.length - L + i) d) := by
  have hN : 0 < signals.length := by omega
  constructor
  · unfold roll
    rw [rotate_getD signals _ i hi d]
    rw [roll_index signals.length L i hN hi]
  · intro hL hiL
    unfold roll
    rw [rotate_getD signals _ i hi d]
    rw [roll_index signals.length L i hN hi]
    rw [roll_index_small signals.length L i hL hiL]

theorem roll_delayed_signal_witness :
    ((roll sig0 1).getD 0 0
      = sig0.getD ((((0 : ℕ) : ℤ) - (1 : ℕ)) % (sig0.length : ℤ)).toNat 0) ∧
    ((1 : ℕ) ≤ sig0.length → (0 : ℕ) < 1 →
      (roll sig0 1).getD 0 0 = sig0.getD (sig0.length - 1 + 0) 0) :=
  roll_delayed_signal sig0 1 0 0 (by decide)

/-- A constant series has sample standard deviation exactly `0`. -/
lemma sampleStd_const (xs : List ℝ) (h : ∀ a ∈ xs, ∀ b ∈ xs, a = b) :
    sampleStd xs = 0 := by
  cases xs with
  | nil => simp [sampleStd]
  | cons x l =>
    have hall : ∀ a ∈ x :: l, a = x := fun a ha =>
      h a ha x (List.mem_cons_self x l)
    have hn : (((x :: l).length : ℕ) : ℝ) ≠ 0 := by
      rw [List.length_cons]
      push_cast
      intro heq
      have h0 : (0 : ℝ) ≤ (l.length : ℝ) := Nat.cast_nonneg _
      linarith
    have hmean : mean (x :: l) = x := by
      unfold mean
      rw [List.sum_eq_card_nsmul (x :: l) x hall, nsmul_eq_mul]
      exact mul_div_cancel_left₀ x hn
    have hzero : ((x :: l).map (fun y => (y - mean (x :: l)) ^ 2)).sum = 0 := by
      apply List.sum_eq_zero
      intro y hy
      rw [List.mem_map] at hy
      obtain ⟨a, ha, rfl⟩ := hy
      rw [hmean, hall a ha]
      ring
    unfold sampleStd
    rw [hzero]
    simp

/-- Claim C8: `sharpe_ratio` returns exactly `0` whenever the sample standard
deviation of the arithmetic excess returns is exactly `0` — in particular
whenever all excess returns are identical — and otherwise returns
`sqrt(periods_per_year) * mean(excess) / std(excess)`. -/
theorem sharpe_ratio_zero_std (returns : List ℝ) (risk_free_rate : ℝ)
    (periods_per_year : ℕ) :
    (sampleStd (excessReturns returns risk_free_rate periods_per_year) = 0 →
      sharpe_ratio returns risk_free_rate periods_per_year = 0) ∧
    ((∀ a ∈ excessReturns returns risk_free_rate periods_per_year,
        ∀ b ∈ excessReturns returns risk_free_rate periods_per_year, a = b) →
      sharpe_ratio returns risk_free_rate periods_per_year = 0) ∧
    (sampleStd (excessReturns returns risk_free_rate periods_per_year) ≠ 0 →
      sharpe_ratio returns risk_free_rate periods_per_year
        = Real.sqrt periods_per_year
          * mean (excessReturns returns risk_free_rate periods_per_year)
          / sampleStd (excessReturns returns risk_free_rate periods_per_year))
    := by
  refine ⟨fun h => ?_, fun h => ?_, fun h => ?_⟩
  · simp [sharpe_ratio, h]
  · simp [sharpe_ratio, sampleStd_const _ h]
  · simp [sharpe_ratio, h]

theorem sharpe_ratio_zero_std_witness :
    sharpe_ratio [0, 0] 0 252 = 0 ∧
    sharpe_ratio [0, Real.log 2] 0 1
      = Real.sqrt ((1 : ℕ) : ℝ) * mean (excessReturns [0, Real.log 2] 0 1)
        / sampleStd (excessReturns [0, Real.log 2] 0 1) := by
  constructor
  · refine (sharpe_ratio_zero_std [0, 0] 0 252).2.1 ?_
    intro a ha b hb
    simp [excessReturns] at ha hb
    rw [ha, hb]
  · refine (sharpe_ratio_zero_std [0, Real.log 2] 0 1).2.2 ?_
    have hex : excessReturns [0, Real.log 2] 0 1 = [0, 1] := by
      simp [excessReturns, Real.exp_log two_pos]
      norm_num
    have hstd : sampleStd (excessReturns [0, Real.log 2] 0 1)
        = Real.sqrt (1 / 2) := by
      rw [hex]
      unfold sampleStd mean
      norm_num
    rw [hstd]
    exact Real.sqrt_ne_zero'.mpr (by norm_num)

end AiBot
